import Mathlib

/-!
Verification of the FIX tag-value codec in fasters (src/fasters/src/encoders/tagvalue.rs).

The development shallow-embeds the decoder and encoder over pure byte streams
(`List Nat`, one entry per byte).  Machine integers are modelled as `Nat`/`Int`
with explicit `% 2 ^ w` at the places the Rust code truncates (the `as u32`
casts and the wrapping checksum).  Rust panics (from `unwrap`, slice indexing
out of bounds, and `read_exact` failures) are modelled by dedicated `panic`
style constructors of the result types, distinct from the codec's own `Error`
values.
-/

namespace Fasters

/-- The base datatypes a tag can resolve to.  The `BaseType` enum lives in the
dictionary module, which is not among the provided sources; its five variants
are fixed by their uses in tagvalue.rs and by the spec (§3). -/
inductive BaseType where
  | int
  | float
  | char
  | string
  | data
deriving DecidableEq

/-- Typed field values (slr::FixFieldValue).  The slr module is not among the
provided sources; the variants and their payload types are fixed by their uses
in tagvalue.rs (Int(i64), Float(f64), Char(char), String, Data(Vec of u8)).
i64 is modelled as `Int`, a char produced by the decoder is always a single
byte (`buf[0] as char`), a Rust String is modelled by its UTF-8 bytes.  The
numeric value of an f64 is not interpreted anywhere in this development; the
Float variant records the accepted text. -/
inductive FixFieldValue where
  | Int (v : Int)
  | Float (text : List Nat)
  | Char (c : Nat)
  | String (s : List Nat)
  | Data (d : List Nat)
deriving DecidableEq

/-- Checksum mismatch payload (struct InvalidChecksum, tagvalue.rs lines 300-304). -/
structure InvalidChecksum where
  expected : Nat
  actual : Nat
deriving DecidableEq

/-- The decode/encode error taxonomy (enum Error, tagvalue.rs lines 306-315). -/
inductive Error where
  | FieldWithoutValue (tag : Nat)
  | RepeatedTag (tag : Nat)
  | Eof
  | InvalidStandardHeader
  | InvalidStandardTrailer
  | InvalidChecksumE (c : InvalidChecksum)
  | Syntax
deriving DecidableEq

/-- A decoded field (slr::Field as used in tagvalue.rs: tag i64, value,
checksum u8, len usize). -/
structure Field where
  tag : Int
  value : FixFieldValue
  checksum : Nat
  len : Nat
deriving DecidableEq

/-- Modelled from the spec: slr::Message is not among the provided sources.
Per §3 it is a mapping from tag to field value assembled by repeated
`fields.insert(tag, value)` with last-write-wins on duplicates, and per §4.6
and §9 the encoder serializes "exactly the fields given, in given order", so
the mapping is modelled as an insertion-ordered association list. -/
structure Message where
  fields : List (Int × FixFieldValue)
deriving DecidableEq

/-- The empty message (slr::Message::new()). -/
def Message.empty : Message := ⟨[]⟩

/-- Modelled from the spec: insertion into the message mapping
(`message.fields.insert`); last write wins on a duplicate tag (§3), fresh tags
are appended in insertion order (§4.6, §9). -/
def Message.insert (m : Message) (t : Int) (v : FixFieldValue) : Message :=
  if t ∈ m.fields.map Prod.fst then
    ⟨m.fields.map (fun p => if p.1 = t then (t, v) else p)⟩
  else
    ⟨m.fields ++ [(t, v)]⟩

/-- The rolling checksum (struct Checksum(u8, usize), tagvalue.rs lines
150-176): `sum` is the u8 wrapping byte sum, `count` the number of bytes
folded in. -/
structure Checksum where
  sum : Nat
  count : Nat
deriving DecidableEq

/-- Checksum::new(). -/
def Checksum.new : Checksum := ⟨0, 0⟩

/-- Checksum::roll_byte: wrapping_add of one byte, count incremented. -/
def Checksum.roll_byte (c : Checksum) (b : Nat) : Checksum :=
  ⟨(c.sum + b) % 256, c.count + 1⟩

/-- Checksum::roll: fold every byte of the window. -/
def Checksum.roll (c : Checksum) (window : List Nat) : Checksum :=
  window.foldl Checksum.roll_byte c

/-- Checksum::window_length. -/
def Checksum.window_length (c : Checksum) : Nat := c.count

/-- Checksum::result. -/
def Checksum.result (c : Checksum) : Nat := c.sum

/-- The field iterator state (struct FieldIter, tagvalue.rs lines 213-221).
`handle` holds the not-yet-consumed bytes of the underlying reader.  The
`designator` (tag resolver) and `transmuter` (separator supplier) are passed
as parameters of `FieldIter.next` instead of being stored; the unused `length:
u32` field of the Rust struct (set to u32::MAX and never read) is omitted. -/
structure FieldIter where
  handle : List Nat
  checksum : Checksum
  data_length : Nat
  is_last : Bool
deriving DecidableEq

/-- Result of parsing raw bytes into a typed value (fn field_value, tagvalue.rs
lines 278-298).  `panicV` models the out-of-bounds `buf[0]` index in the Char
branch on an empty buffer. -/
inductive FVOut where
  | okV (v : FixFieldValue)
  | errV (e : Error)
  | panicV
deriving DecidableEq

/-- Outcome of one pull of the field iterator (FieldIter::next, tagvalue.rs
lines 231-275).  `fin` is Rust's `None` (sequence over), `panicF` models a
panic inside next (unwrap on a failed tag parse, unwrap on a failed
read_exact, the out-of-bounds slice `buffer[0..1]` on an empty buffer, and the
unwrap of a `field_value` error at line 265). -/
inductive NextOut where
  | fin
  | ok (f : Field) (st : FieldIter)
  | errF (e : Error)
  | panicF
deriving DecidableEq

/-- Outcome of TagValue::decode.  `panic` propagates a panic of the field
iterator; `spin` is a fuel-exhaustion marker proven unreachable from
`TagValue.decode` (see `decode_no_spin`). -/
inductive DecodeOut where
  | ok (m : Message)
  | err (e : Error)
  | panic
  | spin
deriving DecidableEq

/-- How a full run of the field iterator ended. -/
inductive RunEnd where
  | exhausted
  | errored (e : Error)
  | panicked
  | outOfFuel
deriving DecidableEq

/-- BufRead::read_until(d, buf): the consumed bytes (up to and including the
first occurrence of `d`, or the whole stream when `d` is absent) paired with
the remaining stream. -/
def readUntil (d : Nat) : List Nat → List Nat × List Nat
  | [] => ([], [])
  | b :: bs =>
    if b = d then ([b], bs)
    else
      let p := readUntil d bs
      (b :: p.1, p.2)

/-- One step of str::parse::<i64> over the digit part: accumulate ASCII
decimal digits, rejecting any non-digit byte. -/
def parseNatGo : List Nat → Nat → Option Nat
  | [], acc => some acc
  | d :: ds, acc =>
    if 48 ≤ d ∧ d ≤ 57 then parseNatGo ds (10 * acc + (d - 48)) else none

/-- The digit run of str::parse::<i64>: at least one ASCII digit. -/
def parseNatDigits (ds : List Nat) : Option Nat :=
  match ds with
  | [] => none
  | _ => parseNatGo ds 0

/-- str::parse::<i64> composed with str::from_utf8 on raw bytes: an optional
sign followed by one or more ASCII digits, with the i64 range check.  Any byte
sequence that is invalid UTF-8 contains a byte that is not an ASCII digit or
sign, so the two failure sources (Utf8Error and ParseIntError) collapse to
`none`; the call sites in tagvalue.rs give both failures the same outcome
(panic via unwrap for the tag, Error::Syntax in field_value). -/
def rustParseI64 (bs : List Nat) : Option Int :=
  match bs with
  | [] => none
  | b :: rest =>
    if b = 43 then
      match parseNatDigits rest with
      | some n => if n ≤ 2 ^ 63 - 1 then some (n : Int) else none
      | none => none
    else if b = 45 then
      match parseNatDigits rest with
      | some n => if n ≤ 2 ^ 63 then some (-(n : Int)) else none
      | none => none
    else
      match parseNatDigits bs with
      | some n => if n ≤ 2 ^ 63 - 1 then some (n : Int) else none
      | none => none

/-- `as u32` truncation of an i64 value. -/
def castU32 (t : Int) : Nat := (t % (2 ^ 32 : Int)).toNat

/-- Is `b` a UTF-8 continuation byte (0x80..0xBF). -/
def isCont (b : Nat) : Bool := 128 ≤ b && b ≤ 191

/-- str::from_utf8 validity: exact UTF-8 (no overlong forms, no surrogates,
max U+10FFFF), byte-range table as in the Unicode standard. -/
def isValidUtf8 : List Nat → Bool
  | [] => true
  | b :: bs =>
    if b ≤ 127 then isValidUtf8 bs
    else if 194 ≤ b && b ≤ 223 then
      match bs with
      | c1 :: rest => isCont c1 && isValidUtf8 rest
      | [] => false
    else if b = 224 then
      match bs with
      | c1 :: c2 :: rest => (160 ≤ c1 && c1 ≤ 191) && isCont c2 && isValidUtf8 rest
      | _ => false
    else if (225 ≤ b && b ≤ 236) || b = 238 || b = 239 then
      match bs with
      | c1 :: c2 :: rest => isCont c1 && isCont c2 && isValidUtf8 rest
      | _ => false
    else if b = 237 then
      match bs with
      | c1 :: c2 :: rest => (128 ≤ c1 && c1 ≤ 159) && isCont c2 && isValidUtf8 rest
      | _ => false
    else if b = 240 then
      match bs with
      | c1 :: c2 :: c3 :: rest =>
        (144 ≤ c1 && c1 ≤ 191) && isCont c2 && isCont c3 && isValidUtf8 rest
      | _ => false
    else if 241 ≤ b && b ≤ 243 then
      match bs with
      | c1 :: c2 :: c3 :: rest => isCont c1 && isCont c2 && isCont c3 && isValidUtf8 rest
      | _ => false
    else if b = 244 then
      match bs with
      | c1 :: c2 :: c3 :: rest =>
        (128 ≤ c1 && c1 ≤ 143) && isCont c2 && isCont c3 && isValidUtf8 rest
      | _ => false
    else false

/-- Is `b` an ASCII decimal digit byte. -/
def isDigitByte (b : Nat) : Bool := 48 ≤ b && b ≤ 57

/-- Syntactic shape of text accepted by str::parse::<f64> past the optional
sign: a digit run with optional fraction, or a leading dot fraction, each with
an optional exponent, or the special words inf / infinity / nan
(case-insensitive).  Only the accept/reject shape is modelled; the numeric
value of a float is never interpreted in this development. -/
def f64Body (bs : List Nat) : Bool :=
  let lower := bs.map (fun b => if 65 ≤ b && b ≤ 90 then b + 32 else b)
  if lower = [105, 110, 102] || lower = [105, 110, 102, 105, 110, 105, 116, 121]
      || lower = [110, 97, 110] then
    true
  else
    let mantDigits := bs.takeWhile isDigitByte
    let afterMant := bs.drop mantDigits.length
    let checkExp : List Nat → Bool := fun e =>
      match e with
      | [] => true
      | c :: e1 =>
        if c = 101 || c = 69 then
          let e2 := if e1.head? = some 43 || e1.head? = some 45 then e1.drop 1 else e1
          decide (e2 ≠ []) && e2.all isDigitByte
        else false
    if mantDigits.isEmpty then
      match afterMant with
      | 46 :: f =>
        let fracDigits := f.takeWhile isDigitByte
        decide (fracDigits ≠ []) && checkExp (f.drop fracDigits.length)
      | _ => false
    else
      match afterMant with
      | 46 :: f =>
        let fracDigits := f.takeWhile isDigitByte
        checkExp (f.drop fracDigits.length)
      | rest => checkExp rest

/-- Does str::parse::<f64> accept these raw bytes (after str::from_utf8; any
invalid UTF-8 byte also fails the syntactic check, and both failures map to
Error::Syntax at the call site). -/
def f64SyntaxOk (bs : List Nat) : Bool :=
  match bs with
  | 43 :: rest => f64Body rest
  | 45 :: rest => f64Body rest
  | _ => f64Body bs

/-- fn field_value (tagvalue.rs lines 278-298): parse raw bytes at a resolved
datatype.  Char takes `buf[0] as char` without a length check (out-of-bounds
panic on an empty buffer); String demands valid UTF-8; Data copies the bytes;
Float and Int demand parseable text, any failure being Error::Syntax. -/
def field_value (datatype : BaseType) (buf : List Nat) : FVOut :=
  match datatype with
  | .char =>
    match buf with
    | [] => .panicV
    | b :: _ => .okV (.Char b)
  | .string => if isValidUtf8 buf then .okV (.String buf) else .errV .Syntax
  | .data => .okV (.Data buf)
  | .float => if f64SyntaxOk buf then .okV (.Float buf) else .errV .Syntax
  | .int =>
    match rustParseI64 buf with
    | some v => .okV (.Int v)
    | none => .errV .Syntax

/-- The pending-data-length update of FieldIter::next (tagvalue.rs lines
266-268): an Int value becomes the new pending data length (`l as u32`), any
other value leaves it unchanged. -/
def dlAfter (dl : Nat) : FixFieldValue → Nat
  | .Int l => castU32 l
  | _ => dl

/-- Tail of FieldIter::next (tagvalue.rs lines 265-274): run field_value on
the buffer — its error is unwrapped, hence a panic — update the pending data
length, and yield the field carrying the checksum state. -/
def finishField (datatype : BaseType) (tag : Int) (buffer : List Nat)
    (cs : Checksum) (restStream : List Nat) (dl : Nat) (lastF : Bool) : NextOut :=
  match field_value datatype buffer with
  | .errV _ => .panicF
  | .panicV => .panicF
  | .okV v =>
    .ok ⟨tag, v, cs.sum, cs.window_length⟩ ⟨restStream, cs, dlAfter dl v, lastF⟩

/-- FieldIter::next (tagvalue.rs lines 231-275).  Read the tag bytes up to
`=` (an empty read ends the sequence; otherwise the final byte is popped and
the rest is parsed as an i64 with panics on failure), mark the iterator
exhausted after tag 10, resolve the datatype, then read the value region: a
Data field reads exactly `data_length` bytes, folds them and one canonical
separator byte into the checksum, and then reads one more byte into
`buffer[0..1]` — overwriting the first data byte, and panicking via the slice
bound when `data_length = 0` or via read_exact when the stream is exhausted;
any other field reads up to the separator, failing with Eof when the stream
ends first, and folds the value bytes (without the separator) into the
checksum. -/
def FieldIter.next (resolve : Nat → BaseType) (sep : Nat) (st : FieldIter) : NextOut :=
  if st.is_last then .fin
  else
    let p := readUntil 61 st.handle
    if p.1 = [] then .fin
    else
      match rustParseI64 p.1.dropLast with
      | none => .panicF
      | some tag =>
        let lastF := tag == 10
        match resolve (castU32 tag) with
        | .data =>
          if st.data_length ≤ p.2.length then
            let dataB := p.2.take st.data_length
            let cs := (st.checksum.roll dataB).roll_byte sep
            if st.data_length = 0 then .panicF
            else
              match p.2.drop st.data_length with
              | [] => .panicF
              | b :: rest2 => finishField .data tag (b :: dataB.drop 1) cs rest2 st.data_length lastF
          else .panicF
        | dt =>
          let q := readUntil sep p.2
          match q.1.getLast? with
          | some b =>
            if b = sep then
              finishField dt tag q.1.dropLast (st.checksum.roll q.1.dropLast) q.2 st.data_length lastF
            else .errF .Eof
          | none => .errF .Eof

/-- The iterator state TagValue::decode starts from (tagvalue.rs lines 44-54):
fresh checksum, data_length 0, is_last false. -/
def initIter (stream : List Nat) : FieldIter :=
  ⟨stream, Checksum.new, 0, false⟩

/-- Pull the iterator until it stops, collecting the produced fields and how
the sequence ended.  Fuel-indexed; `runIter` supplies enough fuel for the
marker `outOfFuel` to be unreachable (`runIter_no_outOfFuel`). -/
def runIterF (resolve : Nat → BaseType) (sep : Nat) : Nat → FieldIter → List Field × RunEnd
  | 0, _ => ([], .outOfFuel)
  | fuel + 1, st =>
    match FieldIter.next resolve sep st with
    | .fin => ([], .exhausted)
    | .errF e => ([], .errored e)
    | .panicF => ([], .panicked)
    | .ok f st2 =>
      let r := runIterF resolve sep fuel st2
      (f :: r.1, r.2)

/-- The full field sequence of a byte stream. -/
def runIter (resolve : Nat → BaseType) (sep : Nat) (stream : List Nat) : List Field × RunEnd :=
  runIterF resolve sep (stream.length + 1) (initIter stream)

/-- The `for f_result in field_iter` loop of TagValue::decode (tagvalue.rs
lines 83-93): insert each field, remember the last tag, propagate errors, and
check the trailer tag on exhaustion.  Fuel-indexed; `TagValue.decode` supplies
enough fuel for `spin` to be unreachable (`decode_no_spin`). -/
def decodeRestF (resolve : Nat → BaseType) (sep : Nat) :
    Nat → Message → Int → FieldIter → DecodeOut
  | 0, _, _, _ => .spin
  | fuel + 1, m, lastTag, st =>
    match FieldIter.next resolve sep st with
    | .fin => if lastTag = 10 then .ok m else .err .InvalidStandardTrailer
    | .errF e => .err e
    | .panicF => .panic
    | .ok f st2 => decodeRestF resolve sep fuel (m.insert f.tag f.value) f.tag st2

/-- TagValue::decode (tagvalue.rs lines 40-94).  The first pull must yield tag
8 (exhaustion here is Error::Eof), the second tag 9 and the third tag 35
(exhaustion or a wrong tag is InvalidStandardHeader); iterator errors
propagate through the `??`; the remaining fields are folded in by the loop and
the last tag must be 10.  The resolver parameter stands for
StandardTagLookup over the codec's dictionary, `sep` for
transmuter.soh_separator(). -/
def TagValue.decode (resolve : Nat → BaseType) (sep : Nat) (stream : List Nat) : DecodeOut :=
  match FieldIter.next resolve sep (initIter stream) with
  | .fin => .err .Eof
  | .errF e => .err e
  | .panicF => .panic
  | .ok f1 st1 =>
    if f1.tag = 8 then
      match FieldIter.next resolve sep st1 with
      | .fin => .err .InvalidStandardHeader
      | .errF e => .err e
      | .panicF => .panic
      | .ok f2 st2 =>
        if f2.tag = 9 then
          match FieldIter.next resolve sep st2 with
          | .fin => .err .InvalidStandardHeader
          | .errF e => .err e
          | .panicF => .panic
          | .ok f3 st3 =>
            if f3.tag = 35 then
              decodeRestF resolve sep (stream.length + 1)
                (((Message.empty.insert f1.tag f1.value).insert f2.tag f2.value).insert
                  f3.tag f3.value)
                35 st3
            else .err .InvalidStandardHeader
        else .err .InvalidStandardHeader
    else .err .InvalidStandardHeader

/-- Decimal digit bytes of a positive number, most significant first; the
first argument is recursion fuel (`n` itself suffices). -/
def toDecDigitsAux : Nat → Nat → List Nat
  | 0, _ => []
  | fuel + 1, n => if n = 0 then [] else toDecDigitsAux fuel (n / 10) ++ [48 + n % 10]

/-- Decimal digit bytes of a natural number. -/
def toDecDigits (n : Nat) : List Nat :=
  if n = 0 then [48] else toDecDigitsAux n n

/-- Decimal text of an i64 (integer Display): minus sign then digits. -/
def encodeInt (v : Int) : List Nat :=
  if v < 0 then 45 :: toDecDigits (-v).toNat else toDecDigits v.toNat

/-- Modelled from the spec: the canonical textual/binary form of a field value
written by slr::Field::encode (§4.6: Int/Float as decimal text, Char as one
byte, String as its UTF-8 bytes, Data as raw bytes).  slr is not among the
provided sources.  A Float value already stores its text. -/
def encodeValue : FixFieldValue → List Nat
  | .Int v => encodeInt v
  | .Float text => text
  | .Char c => [c]
  | .String s => s
  | .Data d => d

/-- Modelled from the spec: slr::Field::encode (not among the provided
sources) writes one `tag=value<SEP>` record (§4.6, §6), the separator being
the byte terminating each field's value (glossary; taken here from the codec
configuration, standard 0x01). -/
def Field.encode (sep : Nat) (f : Field) : List Nat :=
  encodeInt f.tag ++ 61 :: (encodeValue f.value ++ [sep])

/-- Serialization of a field list in order. -/
def encodeFields (sep : Nat) : List (Int × FixFieldValue) → List Nat
  | [] => []
  | p :: ps => Field.encode sep ⟨p.1, p.2, 0, 0⟩ ++ encodeFields sep ps

/-- TagValue::encode (tagvalue.rs lines 96-108): serialize every field of the
message, in the mapping's iteration order, each via Field::encode with
checksum 0 and len 0. -/
def TagValue.encode (sep : Nat) (m : Message) : List Nat :=
  encodeFields sep m.fields

/-- The last tag seen after folding a field list over an initial last-tag,
exactly as the decode loop updates `last_tag`. -/
def lastTagOf (d : Int) (fs : List Field) : Int :=
  fs.foldl (fun _ f => f.tag) d

/-- The bytes one pull folds into the checksum, read off the raw stream: the
value region after the first `=` — for a Data field the `data_length` raw
bytes plus one canonical separator byte, otherwise the bytes before the next
separator — never the tag digits nor the `=` delimiter. -/
def checksumWindow (resolve : Nat → BaseType) (sep : Nat) (dl : Nat)
    (stream : List Nat) : List Nat :=
  let p := readUntil 61 stream
  match rustParseI64 p.1.dropLast with
  | none => []
  | some tag =>
    match resolve (castU32 tag) with
    | .data => p.2.take dl ++ [sep]
    | _ => (readUntil sep p.2).1.dropLast

/-- The checksum windows of the successive successful pulls of a run. -/
def windowsF (resolve : Nat → BaseType) (sep : Nat) : Nat → FieldIter → List (List Nat)
  | 0, _ => []
  | fuel + 1, st =>
    match FieldIter.next resolve sep st with
    | .ok _ st2 => checksumWindow resolve sep st.data_length st.handle :: windowsF resolve sep fuel st2
    | _ => []

/-- Running totals of a list starting from `a`: the k-th entry is `a` plus the
sum of the first k+1 entries. -/
def runningTotalsFrom (a : Nat) : List Nat → List Nat
  | [] => []
  | x :: xs => (a + x) :: runningTotalsFrom (a + x) xs

/-- Sum of a byte list. -/
def sumList : List Nat → Nat
  | [] => 0
  | b :: bs => b + sumList bs

/-- The BaseType a FixFieldValue variant belongs to (the invariant of §3). -/
def typeOf : FixFieldValue → BaseType
  | .Int _ => .int
  | .Float _ => .float
  | .Char _ => .char
  | .String _ => .string
  | .Data _ => .data

/-- Conditions under which one field of a message survives the encode/decode
round trip: a representable nonnegative tag resolved by the dictionary to the
variant's own datatype, a separator-free encoded value, and a value that is an
in-range Int, a Char, or a valid-UTF-8 String (Float and Data fields do not
round-trip, see claims C1, C4 and C9). -/
def GoodField (resolve : Nat → BaseType) (sep : Nat) (t : Int) (v : FixFieldValue) : Prop :=
  0 ≤ t ∧ t < 2 ^ 63 ∧ resolve (castU32 t) = typeOf v ∧ sep ∉ encodeValue v ∧
    match v with
    | .Int n => -(2 ^ 63) ≤ n ∧ n < 2 ^ 63
    | .Char _ => True
    | .String s => isValidUtf8 s = true
    | .Float _ => False
    | .Data _ => False

instance (resolve : Nat → BaseType) (sep : Nat) (t : Int) (v : FixFieldValue) :
    Decidable (GoodField resolve sep t v) := by
  unfold GoodField
  cases v <;> infer_instance


/-! Basic facts about the reading and parsing helpers. -/

theorem readUntil_cons (d b : Nat) (bs : List Nat) :
    readUntil d (b :: bs) =
      if b = d then ([b], bs) else (b :: (readUntil d bs).1, (readUntil d bs).2) := by
  rfl

theorem readUntil_append_cons {d : Nat} :
    ∀ (xs : List Nat), d ∉ xs → ∀ r : List Nat, readUntil d (xs ++ d :: r) = (xs ++ [d], r) := by
  intro xs
  induction xs with
  | nil => intro _ r; simp [readUntil]
  | cons a as ih =>
    intro hd r
    have ha : a ≠ d := by
      intro h; exact hd (by simp [h])
    have has : d ∉ as := fun h => hd (List.mem_cons_of_mem _ h)
    rw [List.cons_append, readUntil_cons, if_neg ha, ih has r]
    simp

theorem readUntil_not_mem {d : Nat} :
    ∀ (s : List Nat), d ∉ s → readUntil d s = (s, []) := by
  intro s
  induction s with
  | nil => intro _; rfl
  | cons a as ih =>
    intro hd
    have ha : a ≠ d := by intro h; exact hd (by simp [h])
    have has : d ∉ as := fun h => hd (List.mem_cons_of_mem _ h)
    simp only [readUntil, if_neg ha, ih has]

theorem readUntil_fst_append_snd {d : Nat} :
    ∀ (s : List Nat), (readUntil d s).1 ++ (readUntil d s).2 = s := by
  intro s
  induction s with
  | nil => rfl
  | cons a as ih =>
    by_cases h : a = d
    · simp [readUntil, h]
    · simp only [readUntil, if_neg h, List.cons_append, ih]

theorem readUntil_snd_le {d : Nat} (s : List Nat) :
    (readUntil d s).2.length ≤ s.length := by
  conv_rhs => rw [← readUntil_fst_append_snd (d := d) s]
  simp

theorem readUntil_snd_lt {d : Nat} (s : List Nat) (h : (readUntil d s).1 ≠ []) :
    (readUntil d s).2.length < s.length := by
  conv_rhs => rw [← readUntil_fst_append_snd (d := d) s]
  simp only [List.length_append]
  have : 0 < (readUntil d s).1.length := List.length_pos.mpr h
  omega

theorem sumList_append : ∀ (xs ys : List Nat), sumList (xs ++ ys) = sumList xs + sumList ys := by
  intro xs ys
  induction xs with
  | nil => simp [sumList]
  | cons a as ih => simp [sumList, ih]; omega

theorem Checksum.roll_count (w : List Nat) : ∀ c : Checksum, (c.roll w).count = c.count + w.length := by
  induction w with
  | nil => intro c; simp [Checksum.roll]
  | cons b bs ih =>
    intro c
    show ((c.roll_byte b).roll bs).count = _
    rw [ih]
    simp [Checksum.roll_byte]
    omega

theorem Checksum.roll_sum (w : List Nat) :
    ∀ c : Checksum, c.sum < 256 → (c.roll w).sum = (c.sum + sumList w) % 256 := by
  induction w with
  | nil =>
    intro c hc
    simp [Checksum.roll, sumList, Nat.mod_eq_of_lt hc]
  | cons b bs ih =>
    intro c hc
    show ((c.roll_byte b).roll bs).sum = _
    rw [ih (c.roll_byte b) (by simp [Checksum.roll_byte]; omega)]
    simp only [Checksum.roll_byte, sumList]
    rw [Nat.mod_add_mod]
    omega

theorem Checksum.roll_sum_lt (w : List Nat) :
    ∀ c : Checksum, c.sum < 256 → (c.roll w).sum < 256 := by
  induction w with
  | nil => intro c hc; exact hc
  | cons b bs ih =>
    intro c hc
    exact ih (c.roll_byte b) (by simp [Checksum.roll_byte]; omega)

theorem Checksum.roll_byte_sum_lt (c : Checksum) (b : Nat) : (c.roll_byte b).sum < 256 := by
  simp [Checksum.roll_byte]
  omega


/-! Decimal digits: the encoder's digit strings parse back to the same
number. -/

theorem toDecDigitsAux_digits :
    ∀ (fuel n : Nat), ∀ b ∈ toDecDigitsAux fuel n, 48 ≤ b ∧ b ≤ 57 := by
  intro fuel
  induction fuel with
  | zero => intro n b hb; simp [toDecDigitsAux] at hb
  | succ k ih =>
    intro n b hb
    by_cases hn : n = 0
    · simp [toDecDigitsAux, hn] at hb
    · rw [toDecDigitsAux, if_neg hn] at hb
      rcases List.mem_append.mp hb with h | h
      · exact ih _ b h
      · have : b = 48 + n % 10 := by simpa using h
        subst this
        have : n % 10 < 10 := Nat.mod_lt _ (by omega)
        omega

theorem toDecDigits_digits (n : Nat) : ∀ b ∈ toDecDigits n, 48 ≤ b ∧ b ≤ 57 := by
  intro b hb
  by_cases hn : n = 0
  · simp [toDecDigits, hn] at hb
    omega
  · rw [toDecDigits, if_neg hn] at hb
    exact toDecDigitsAux_digits n n b hb

theorem toDecDigitsAux_ne_nil (fuel n : Nat) (h0 : 0 < n) (hf : n ≤ fuel) :
    toDecDigitsAux fuel n ≠ [] := by
  cases fuel with
  | zero => omega
  | succ k =>
    rw [toDecDigitsAux, if_neg (by omega)]
    simp

theorem toDecDigits_ne_nil (n : Nat) : toDecDigits n ≠ [] := by
  by_cases hn : n = 0
  · simp [toDecDigits, hn]
  · rw [toDecDigits, if_neg hn]
    exact toDecDigitsAux_ne_nil n n (by omega) le_rfl

/-- The value reading of a digit-byte list, continuing an accumulator. -/
def digitsValFrom : List Nat → Nat → Nat
  | [], a => a
  | d :: ds, a => digitsValFrom ds (10 * a + (d - 48))

theorem digitsValFrom_append (xs ys : List Nat) :
    ∀ a, digitsValFrom (xs ++ ys) a = digitsValFrom ys (digitsValFrom xs a) := by
  induction xs with
  | nil => intro a; rfl
  | cons x xs ih =>
    intro a
    show digitsValFrom (xs ++ ys) (10 * a + (x - 48)) =
      digitsValFrom ys (digitsValFrom xs (10 * a + (x - 48)))
    exact ih _

theorem parseNatGo_digits :
    ∀ (ds : List Nat), (∀ b ∈ ds, 48 ≤ b ∧ b ≤ 57) →
      ∀ a, parseNatGo ds a = some (digitsValFrom ds a) := by
  intro ds
  induction ds with
  | nil => intro _ a; rfl
  | cons d ds ih =>
    intro h a
    have hd := h d (by simp)
    rw [parseNatGo, if_pos hd]
    exact ih (fun b hb => h b (List.mem_cons_of_mem _ hb)) _

theorem digitsValFrom_toDecDigitsAux :
    ∀ (fuel n : Nat), n ≤ fuel → ∀ a,
      digitsValFrom (toDecDigitsAux fuel n) a = a * 10 ^ (toDecDigitsAux fuel n).length + n := by
  intro fuel
  induction fuel with
  | zero =>
    intro n hn a
    have : n = 0 := by omega
    simp [toDecDigitsAux, this, digitsValFrom]
  | succ k ih =>
    intro n hn a
    by_cases h0 : n = 0
    · simp [toDecDigitsAux, h0, digitsValFrom]
    · rw [toDecDigitsAux, if_neg h0]
      have hdiv : n / 10 ≤ k := by
        have : n / 10 < n := Nat.div_lt_self (by omega) (by omega)
        omega
      rw [digitsValFrom_append, ih (n / 10) hdiv a]
      simp only [digitsValFrom]
      rw [List.length_append]
      simp only [List.length_singleton]
      have hmod : 48 + n % 10 - 48 = n % 10 := by omega
      rw [hmod, pow_succ]
      have := Nat.div_add_mod n 10
      ring_nf
      omega

theorem parseNatDigits_toDecDigits (n : Nat) : parseNatDigits (toDecDigits n) = some n := by
  by_cases hn : n = 0
  · subst hn; rfl
  · rw [toDecDigits, if_neg hn]
    have hne := toDecDigitsAux_ne_nil n n (by omega) le_rfl
    have hd := toDecDigitsAux_digits n n
    obtain ⟨x, xs, hxxs⟩ := List.exists_cons_of_ne_nil hne
    rw [parseNatDigits.eq_def]
    rw [hxxs]
    rw [← hxxs]
    rw [parseNatGo_digits _ hd 0]
    rw [digitsValFrom_toDecDigitsAux n n le_rfl 0]
    simp

theorem encodeInt_digits_of_nonneg (t : Int) (ht : 0 ≤ t) :
    ∀ b ∈ encodeInt t, 48 ≤ b ∧ b ≤ 57 := by
  rw [encodeInt, if_neg (by omega)]
  exact toDecDigits_digits t.toNat

theorem not_mem_encodeInt_of_nonneg (t : Int) (ht : 0 ≤ t) (b : Nat) (hb : 58 ≤ b ∨ b ≤ 47) :
    b ∉ encodeInt t := by
  intro hmem
  have := encodeInt_digits_of_nonneg t ht b hmem
  omega

theorem rustParseI64_encodeInt (v : Int) (h1 : -(2 ^ 63) ≤ v) (h2 : v < 2 ^ 63) :
    rustParseI64 (encodeInt v) = some v := by
  by_cases hv : v < 0
  · rw [encodeInt, if_pos hv]
    rw [rustParseI64]
    rw [if_neg (by omega), if_pos rfl]
    rw [parseNatDigits_toDecDigits]
    have hle : (-v).toNat ≤ 2 ^ 63 := by omega
    show (if (-v).toNat ≤ 2 ^ 63 then some (-(((-v).toNat : Nat) : Int)) else none) = some v
    rw [if_pos hle]
    congr 1
    have : ((-v).toNat : Int) = -v := Int.toNat_of_nonneg (by omega)
    rw [this]
    ring
  · rw [encodeInt, if_neg hv]
    obtain ⟨x, xs, hx⟩ := List.exists_cons_of_ne_nil (toDecDigits_ne_nil v.toNat)
    have hxd : 48 ≤ x ∧ x ≤ 57 := toDecDigits_digits v.toNat x (by rw [hx]; simp)
    rw [hx, rustParseI64]
    rw [if_neg (by omega), if_neg (by omega)]
    rw [← hx, parseNatDigits_toDecDigits]
    have hle : v.toNat ≤ 2 ^ 63 - 1 := by omega
    show (if v.toNat ≤ 2 ^ 63 - 1 then some ((v.toNat : Nat) : Int) else none) = some v
    rw [if_pos hle]
    congr 1
    exact Int.toNat_of_nonneg (by omega)

/-! Structural facts about one pull of the field iterator. -/

theorem finishField_okV {dt : BaseType} {buf : List Nat} {v : FixFieldValue}
    (hfv : field_value dt buf = .okV v) (tag : Int) (cs : Checksum)
    (rest : List Nat) (dl : Nat) (lf : Bool) :
    finishField dt tag buf cs rest dl lf = .ok ⟨tag, v, cs.sum, cs.count⟩ ⟨rest, cs, dlAfter dl v, lf⟩ := by
  rw [finishField, hfv]
  rfl

theorem finishField_ok {dt tag buf cs rest dl lf f st2}
    (h : finishField dt tag buf cs rest dl lf = .ok f st2) :
    ∃ v, field_value dt buf = .okV v ∧ f = ⟨tag, v, cs.sum, cs.count⟩ ∧
      st2 = ⟨rest, cs, dlAfter dl v, lf⟩ := by
  rw [finishField] at h
  split at h
  · simp at h
  · simp at h
  case _ v hfv =>
    refine ⟨v, hfv, ?_, ?_⟩
    · cases h; rfl
    · cases h; rfl

theorem finishField_ne_errF {dt tag buf cs rest dl lf e} :
    finishField dt tag buf cs rest dl lf ≠ .errF e := by
  rw [finishField]
  split <;> simp

theorem next_err_eof {resolve : Nat → BaseType} {sep : Nat} {st : FieldIter} {e : Error}
    (h : FieldIter.next resolve sep st = .errF e) : e = .Eof := by
  simp only [FieldIter.next] at h
  split at h
  · simp at h
  split at h
  · simp at h
  split at h
  · simp at h
  split at h
  · split at h
    · split at h
      · simp at h
      · split at h
        · simp at h
        · exact absurd h finishField_ne_errF
    · simp at h
  · split at h
    · split at h
      · exact absurd h finishField_ne_errF
      · simp at h; exact h.symm
    · simp at h; exact h.symm

theorem next_ok_stream_lt {resolve : Nat → BaseType} {sep : Nat} {st : FieldIter}
    {f : Field} {st2 : FieldIter} (h : FieldIter.next resolve sep st = .ok f st2) :
    st2.handle.length < st.handle.length := by
  simp only [FieldIter.next] at h
  split at h
  · simp at h
  split at h
  · simp at h
  rename_i hp1
  have hlt : (readUntil 61 st.handle).2.length < st.handle.length :=
    readUntil_snd_lt _ hp1
  split at h
  · simp at h
  split at h
  · split at h
    · split at h
      · simp at h
      · split at h
        · simp at h
        · rename_i b rest2 hdrop
          obtain ⟨v, hv, hf, hst2⟩ := finishField_ok h
          subst hst2
          show rest2.length < st.handle.length
          have hlen := congrArg List.length hdrop
          simp only [List.length_drop, List.length_cons] at hlen
          omega
    · simp at h
  · split at h
    · split at h
      · obtain ⟨v, hv, hf, hst2⟩ := finishField_ok h
        subst hst2
        show (readUntil sep (readUntil 61 st.handle).2).2.length < st.handle.length
        have := readUntil_snd_le (d := sep) ((readUntil 61 st.handle).2)
        omega
      · simp at h
    · simp at h

/-! Fuel does not matter once it exceeds the remaining stream length, and the
fuel supplied by the top-level entry points always suffices. -/

theorem runIterF_congr (resolve : Nat → BaseType) (sep : Nat) :
    ∀ (f1 : Nat) {st : FieldIter} (f2 : Nat), st.handle.length < f1 →
      st.handle.length < f2 → runIterF resolve sep f1 st = runIterF resolve sep f2 st := by
  intro f1
  induction f1 with
  | zero => intro st f2 h1 _; omega
  | succ k ih =>
    intro st f2 h1 h2
    cases f2 with
    | zero => omega
    | succ j =>
      simp only [runIterF]
      cases hnext : FieldIter.next resolve sep st with
      | fin => rfl
      | errF e => rfl
      | panicF => rfl
      | ok f st2 =>
        have hlt := next_ok_stream_lt hnext
        have heq : runIterF resolve sep k st2 = runIterF resolve sep j st2 :=
          ih j (by omega) (by omega)
        show (f :: (runIterF resolve sep k st2).1, (runIterF resolve sep k st2).2) =
          (f :: (runIterF resolve sep j st2).1, (runIterF resolve sep j st2).2)
        rw [heq]

theorem runIterF_no_outOfFuel (resolve : Nat → BaseType) (sep : Nat) :
    ∀ (fuel : Nat) {st : FieldIter}, st.handle.length < fuel →
      (runIterF resolve sep fuel st).2 ≠ .outOfFuel := by
  intro fuel
  induction fuel with
  | zero => intro st h; omega
  | succ k ih =>
    intro st h
    simp only [runIterF]
    cases hnext : FieldIter.next resolve sep st with
    | fin => simp
    | errF e => simp
    | panicF => simp
    | ok f st2 =>
      have hlt := next_ok_stream_lt hnext
      exact ih (by omega)

theorem decodeRestF_congr (resolve : Nat → BaseType) (sep : Nat) :
    ∀ (f1 : Nat) {st : FieldIter} (f2 : Nat) (m : Message) (lastTag : Int),
      st.handle.length < f1 → st.handle.length < f2 →
      decodeRestF resolve sep f1 m lastTag st = decodeRestF resolve sep f2 m lastTag st := by
  intro f1
  induction f1 with
  | zero => intro st f2 m lt h1 _; omega
  | succ k ih =>
    intro st f2 m lt h1 h2
    cases f2 with
    | zero => omega
    | succ j =>
      simp only [decodeRestF]
      cases hnext : FieldIter.next resolve sep st with
      | fin => rfl
      | errF e => rfl
      | panicF => rfl
      | ok f st2 =>
        have hlt := next_ok_stream_lt hnext
        exact ih j _ _ (by omega) (by omega)

theorem decodeRestF_no_spin (resolve : Nat → BaseType) (sep : Nat) :
    ∀ (fuel : Nat) {st : FieldIter} (m : Message) (lastTag : Int),
      st.handle.length < fuel →
      decodeRestF resolve sep fuel m lastTag st ≠ .spin := by
  intro fuel
  induction fuel with
  | zero => intro st m lt h; omega
  | succ k ih =>
    intro st m lt h
    simp only [decodeRestF]
    cases hnext : FieldIter.next resolve sep st with
    | fin =>
      show (if lt = 10 then DecodeOut.ok m else DecodeOut.err .InvalidStandardTrailer) ≠ .spin
      split <;> simp
    | errF e =>
      show DecodeOut.err e ≠ .spin
      simp
    | panicF =>
      show DecodeOut.panic ≠ .spin
      simp
    | ok f st2 =>
      have hlt := next_ok_stream_lt hnext
      exact ih _ _ (by omega)

/-- The decoder's fuel marker is unreachable: TagValue.decode never returns
`spin`, so the fuel-indexed loop is a faithful rendering of the Rust `for`
loop. -/
theorem decode_no_spin (resolve : Nat → BaseType) (sep : Nat) (stream : List Nat) :
    TagValue.decode resolve sep stream ≠ .spin := by
  rw [TagValue.decode]
  cases h1 : FieldIter.next resolve sep (initIter stream) with
  | fin => simp
  | errF e => simp
  | panicF => simp
  | ok f1 st1 =>
    dsimp only
    by_cases ht1 : f1.tag = 8
    · rw [if_pos ht1]
      cases h2 : FieldIter.next resolve sep st1 with
      | fin => simp
      | errF e => simp
      | panicF => simp
      | ok f2 st2 =>
        dsimp only
        by_cases ht2 : f2.tag = 9
        · rw [if_pos ht2]
          cases h3 : FieldIter.next resolve sep st2 with
          | fin => simp
          | errF e => simp
          | panicF => simp
          | ok f3 st3 =>
            dsimp only
            by_cases ht3 : f3.tag = 35
            · rw [if_pos ht3]
              have l1 := next_ok_stream_lt h1
              have l2 := next_ok_stream_lt h2
              have l3 := next_ok_stream_lt h3
              have : (initIter stream).handle.length = stream.length := rfl
              exact decodeRestF_no_spin resolve sep _ _ _ (by omega)
            · rw [if_neg ht3]; simp
        · rw [if_neg ht2]; simp
    · rw [if_neg ht1]; simp

theorem lastTagOf_cons (d : Int) (f : Field) (fs : List Field) :
    lastTagOf d (f :: fs) = lastTagOf f.tag fs := rfl

theorem decodeRestF_IST_iff (resolve : Nat → BaseType) (sep : Nat) :
    ∀ (fuel : Nat) {st : FieldIter} (m : Message) (lt : Int), st.handle.length < fuel →
      (decodeRestF resolve sep fuel m lt st = .err .InvalidStandardTrailer ↔
        ∃ fs, runIterF resolve sep fuel st = (fs, .exhausted) ∧ lastTagOf lt fs ≠ 10) := by
  intro fuel
  induction fuel with
  | zero => intro st m lt h; omega
  | succ k ih =>
    intro st m lt h
    simp only [decodeRestF, runIterF]
    cases hnext : FieldIter.next resolve sep st with
    | fin =>
      dsimp only
      by_cases hlt10 : lt = 10
      · rw [if_pos hlt10]
        constructor
        · intro hok; simp at hok
        · rintro ⟨fs, hfs, hne⟩
          have : fs = [] := by
            have := congrArg Prod.fst hfs
            simpa using this.symm
          subst this
          exact absurd hlt10 hne
      · rw [if_neg hlt10]
        constructor
        · intro _
          exact ⟨[], rfl, hlt10⟩
        · intro _; rfl
    | errF e =>
      dsimp only
      constructor
      · intro hbad
        have he := next_err_eof hnext
        subst he
        simp at hbad
      · rintro ⟨fs, hfs, _⟩
        have := congrArg Prod.snd hfs
        simp at this
    | panicF =>
      dsimp only
      constructor
      · intro hbad; simp at hbad
      · rintro ⟨fs, hfs, _⟩
        have := congrArg Prod.snd hfs
        simp at this
    | ok f st2 =>
      dsimp only
      have hlt := next_ok_stream_lt hnext
      rw [ih (m.insert f.tag f.value) f.tag (by omega)]
      constructor
      · rintro ⟨fs, hfs, hne⟩
        refine ⟨f :: fs, ?_, ?_⟩
        · rw [hfs]
        · rw [lastTagOf_cons]; exact hne
      · rintro ⟨fs, hfs, hne⟩
        refine ⟨(runIterF resolve sep k st2).1, ?_, ?_⟩
        · have h2 := congrArg Prod.snd hfs
          simp at h2
          exact Prod.ext rfl h2
        · have h1 := congrArg Prod.fst hfs
          simp at h1
          rw [← h1] at hne
          rw [lastTagOf_cons] at hne
          exact hne

theorem sumList_single (b : Nat) : sumList [b] = b := by
  simp [sumList]

theorem next_ok_checksum {resolve : Nat → BaseType} {sep : Nat} {st : FieldIter}
    {f : Field} {st2 : FieldIter} (h : FieldIter.next resolve sep st = .ok f st2)
    (hs : st.checksum.sum < 256) :
    st2.checksum.count
        = st.checksum.count + (checksumWindow resolve sep st.data_length st.handle).length ∧
      st2.checksum.sum
        = (st.checksum.sum + sumList (checksumWindow resolve sep st.data_length st.handle)) % 256 ∧
      st2.checksum.sum < 256 ∧
      f.len = st2.checksum.count ∧ f.checksum = st2.checksum.sum := by
  simp only [FieldIter.next] at h
  split at h
  · simp at h
  split at h
  · simp at h
  rename_i hp1
  split at h
  · simp at h
  rename_i tag htag
  rw [checksumWindow]
  simp only [htag]
  split at h
  · -- the resolver returned Data; the goal's window match is reduced by the split
    split at h
    · rename_i hle
      split at h
      · simp at h
      · split at h
        · simp at h
        · rename_i b rest2 hdrop
          obtain ⟨v, hv, hf, hst2⟩ := finishField_ok h
          subst hst2
          subst hf
          dsimp only
          have hlen : (List.take st.data_length (readUntil 61 st.handle).2).length
              = st.data_length := by
            simp [List.length_take]
            omega
          refine ⟨?_, ?_, ?_, rfl, rfl⟩
          · rw [Checksum.roll_byte]
            dsimp only
            rw [Checksum.roll_count]
            simp only [List.length_append, List.length_singleton]
            omega
          · rw [Checksum.roll_byte]
            dsimp only
            rw [Checksum.roll_sum _ _ hs]
            rw [sumList_append, sumList_single]
            rw [Nat.mod_add_mod]
            ring_nf
          · rw [Checksum.roll_byte]
            dsimp only
            omega
    · simp at h
  · -- any other datatype; again the goal's window match is already reduced
    split at h
    · rename_i b hlast
      split at h
      · obtain ⟨v, hv, hf, hst2⟩ := finishField_ok h
        subst hst2
        subst hf
        dsimp only
        exact ⟨Checksum.roll_count _ _, Checksum.roll_sum _ _ hs,
          Checksum.roll_sum_lt _ _ hs, rfl, rfl⟩
      · simp at h
    · simp at h

theorem runningTotalsFrom_map_mod :
    ∀ (xs : List Nat) (a b : Nat), a % 256 = b % 256 →
      (runningTotalsFrom a xs).map (· % 256) = (runningTotalsFrom b xs).map (· % 256) := by
  intro xs
  induction xs with
  | nil => intro a b _; rfl
  | cons x xs ih =>
    intro a b hab
    simp only [runningTotalsFrom, List.map_cons]
    have hx : (a + x) % 256 = (b + x) % 256 := by omega
    rw [hx, ih (a + x) (b + x) hx]

theorem runningTotalsFrom_head_le :
    ∀ (xs : List Nat) (a y : Nat), (runningTotalsFrom a xs).head? = some y → a ≤ y := by
  intro xs
  cases xs with
  | nil => intro a y h; simp [runningTotalsFrom] at h
  | cons x xs =>
    intro a y h
    simp only [runningTotalsFrom, List.head?_cons, Option.some.injEq] at h
    omega

theorem runningTotalsFrom_chain :
    ∀ (xs : List Nat) (a : Nat), List.Chain' (· ≤ ·) (runningTotalsFrom a xs) := by
  intro xs
  induction xs with
  | nil => intro a; simp [runningTotalsFrom]
  | cons x xs ih =>
    intro a
    simp only [runningTotalsFrom]
    rw [List.chain'_cons']
    exact ⟨fun y hy => runningTotalsFrom_head_le _ _ _ hy, ih (a + x)⟩

theorem runIterF_checksum_maps (resolve : Nat → BaseType) (sep : Nat) :
    ∀ (fuel : Nat) (st : FieldIter), st.checksum.sum < 256 →
      ((runIterF resolve sep fuel st).1.map Field.len
          = runningTotalsFrom st.checksum.count ((windowsF resolve sep fuel st).map List.length)) ∧
      ((runIterF resolve sep fuel st).1.map Field.checksum
          = (runningTotalsFrom st.checksum.sum ((windowsF resolve sep fuel st).map sumList)).map
              (· % 256)) := by
  intro fuel
  induction fuel with
  | zero =>
    intro st _
    simp [runIterF, windowsF, runningTotalsFrom]
  | succ k ih =>
    intro st hs
    simp only [runIterF, windowsF]
    cases hnext : FieldIter.next resolve sep st with
    | fin => simp [runningTotalsFrom]
    | errF e => simp [runningTotalsFrom]
    | panicF => simp [runningTotalsFrom]
    | ok f st2 =>
      dsimp only
      obtain ⟨hc, hsum, hlt256, hflen, hfsum⟩ := next_ok_checksum hnext hs
      obtain ⟨ih1, ih2⟩ := ih st2 hlt256
      constructor
      · simp only [List.map_cons, runningTotalsFrom]
        rw [hflen, hc, ih1, hc]
      · simp only [List.map_cons, runningTotalsFrom]
        rw [hfsum, hsum, ih2]
        congr 1
        apply runningTotalsFrom_map_mod
        omega

/-! Decoding one encoded field: the heart of the round-trip argument. -/

theorem not_61_mem_encodeInt (t : Int) (ht : 0 ≤ t) : (61 : Nat) ∉ encodeInt t := by
  intro hmem
  have := encodeInt_digits_of_nonneg t ht 61 hmem
  omega

theorem next_encodeField_core (resolve : Nat → BaseType) (sep : Nat) (t : Int)
    (dt : BaseType) (val : FixFieldValue) (vb rest : List Nat) (cs : Checksum) (dl : Nat)
    (ht0 : 0 ≤ t) (ht63 : t < 2 ^ 63) (hres : resolve (castU32 t) = dt)
    (hdt : dt ≠ .data) (hsep : sep ∉ vb) (hfv : field_value dt vb = .okV val) :
    FieldIter.next resolve sep ⟨encodeInt t ++ 61 :: (vb ++ sep :: rest), cs, dl, false⟩ =
      .ok ⟨t, val, (cs.roll vb).sum, (cs.roll vb).count⟩
        ⟨rest, cs.roll vb, dlAfter dl val, t == 10⟩ := by
  simp only [FieldIter.next]
  have hfb : ¬(false = true) := by simp
  rw [if_neg hfb]
  rw [readUntil_append_cons (encodeInt t) (not_61_mem_encodeInt t ht0) (vb ++ sep :: rest)]
  try dsimp only
  have hne : ¬(encodeInt t ++ [61] = []) := by simp
  rw [if_neg hne]
  rw [List.dropLast_concat]
  rw [rustParseI64_encodeInt t (by omega) ht63]
  try dsimp only
  rw [hres]
  rw [readUntil_append_cons vb hsep rest]
  try dsimp only
  cases dt with
  | data => exact absurd rfl hdt
  | int =>
    rw [List.getLast?_concat]
    try dsimp only
    rw [if_pos rfl, List.dropLast_concat]
    exact finishField_okV hfv t (cs.roll vb) rest dl (t == 10)
  | float =>
    rw [List.getLast?_concat]
    try dsimp only
    rw [if_pos rfl, List.dropLast_concat]
    exact finishField_okV hfv t (cs.roll vb) rest dl (t == 10)
  | char =>
    rw [List.getLast?_concat]
    try dsimp only
    rw [if_pos rfl, List.dropLast_concat]
    exact finishField_okV hfv t (cs.roll vb) rest dl (t == 10)
  | string =>
    rw [List.getLast?_concat]
    try dsimp only
    rw [if_pos rfl, List.dropLast_concat]
    exact finishField_okV hfv t (cs.roll vb) rest dl (t == 10)

theorem field_value_typeOf {resolve : Nat → BaseType} {sep : Nat} {t : Int}
    {v : FixFieldValue} (hg : GoodField resolve sep t v) :
    field_value (typeOf v) (encodeValue v) = .okV v := by
  obtain ⟨_, _, _, _, hv⟩ := hg
  cases v with
  | Int n =>
    simp only [typeOf, encodeValue, field_value]
    rw [rustParseI64_encodeInt n hv.1 hv.2]
  | Float text => exact hv.elim
  | Char c => rfl
  | String s =>
    simp only [typeOf, encodeValue, field_value]
    rw [if_pos hv]
  | Data d => exact hv.elim

theorem typeOf_ne_data {resolve : Nat → BaseType} {sep : Nat} {t : Int}
    {v : FixFieldValue} (hg : GoodField resolve sep t v) : typeOf v ≠ .data := by
  obtain ⟨_, _, _, _, hv⟩ := hg
  cases v with
  | Int n => simp [typeOf]
  | Float text => exact hv.elim
  | Char c => simp [typeOf]
  | String s => simp [typeOf]
  | Data d => exact hv.elim

theorem next_encodeField (resolve : Nat → BaseType) (sep : Nat) (t : Int)
    (v : FixFieldValue) (rest : List Nat) (cs : Checksum) (dl : Nat)
    (hg : GoodField resolve sep t v) :
    FieldIter.next resolve sep ⟨Field.encode sep ⟨t, v, 0, 0⟩ ++ rest, cs, dl, false⟩ =
      .ok ⟨t, v, (cs.roll (encodeValue v)).sum, (cs.roll (encodeValue v)).count⟩
        ⟨rest, cs.roll (encodeValue v), dlAfter dl v, t == 10⟩ := by
  obtain ⟨ht0, ht63, hres, hsep, hv⟩ := hg
  have hstream : Field.encode sep ⟨t, v, 0, 0⟩ ++ rest
      = encodeInt t ++ 61 :: (encodeValue v ++ sep :: rest) := by
    simp [Field.encode]
  rw [hstream]
  exact next_encodeField_core resolve sep t (typeOf v) v (encodeValue v) rest cs dl
    ht0 ht63 hres (typeOf_ne_data ⟨ht0, ht63, hres, hsep, hv⟩) hsep
    (field_value_typeOf ⟨ht0, ht63, hres, hsep, hv⟩)

theorem Message.insert_fresh (m : Message) (t : Int) (v : FixFieldValue)
    (h : t ∉ m.fields.map Prod.fst) : m.insert t v = ⟨m.fields ++ [(t, v)]⟩ := by
  rw [Message.insert, if_neg h]

theorem next_exhausted (resolve : Nat → BaseType) (sep : Nat) (h : List Nat)
    (cs : Checksum) (dl : Nat) :
    FieldIter.next resolve sep ⟨h, cs, dl, true⟩ = .fin := rfl

theorem decodeRest_encodeFields (resolve : Nat → BaseType) (sep : Nat) :
    ∀ (mid : List (Int × FixFieldValue)) (fuel : Nat) (m : Message)
      (v10 : FixFieldValue) (cs : Checksum) (dl : Nat) (lt : Int),
      (∀ p ∈ mid ++ [((10 : Int), v10)], GoodField resolve sep p.1 p.2) →
      (∀ p ∈ mid, p.1 ≠ 10) →
      (∀ p ∈ mid ++ [((10 : Int), v10)], p.1 ∉ m.fields.map Prod.fst) →
      ((mid ++ [((10 : Int), v10)]).map Prod.fst).Nodup →
      mid.length + 1 < fuel →
      decodeRestF resolve sep fuel m lt
          ⟨encodeFields sep (mid ++ [(10, v10)]), cs, dl, false⟩
        = .ok ⟨m.fields ++ (mid ++ [(10, v10)])⟩ := by
  intro mid
  induction mid with
  | nil =>
    intro fuel m v10 cs dl lt hgood _ hfresh _ hfuel
    match fuel, hfuel with
    | k + 1, hfuel =>
    have hg10 : GoodField resolve sep 10 v10 := hgood (10, v10) (by simp)
    simp only [List.nil_append, encodeFields]
    simp only [decodeRestF]
    rw [next_encodeField resolve sep 10 v10 [] cs dl hg10]
    dsimp only
    have h1010 : ((10 : Int) == 10) = true := by decide
    rw [h1010]
    match k, hfuel with
    | j + 1, _ =>
    simp only [decodeRestF]
    rw [next_exhausted]
    dsimp only
    rw [if_pos trivial]
    rw [Message.insert_fresh m 10 v10 (hfresh (10, v10) (by simp))]
  | cons p mid' ih =>
    intro fuel m v10 cs dl lt hgood hne10 hfresh hnodup hfuel
    obtain ⟨t, v⟩ := p
    match fuel, hfuel with
    | k + 1, hfuel =>
    have hgtv : GoodField resolve sep t v := hgood (t, v) (by simp)
    simp only [List.cons_append, encodeFields, List.append_eq]
    simp only [decodeRestF]
    rw [next_encodeField resolve sep t v (encodeFields sep (mid' ++ [(10, v10)])) cs dl hgtv]
    dsimp only
    have ht10 : t ≠ 10 := hne10 (t, v) (by simp)
    have hbeq : (t == 10) = false := by
      simp [ht10]
    rw [hbeq]
    rw [Message.insert_fresh m t v (hfresh (t, v) (by simp))]
    have hnodup' : ((mid' ++ [((10 : Int), v10)]).map Prod.fst).Nodup := by
      simp only [List.cons_append, List.map_cons] at hnodup
      exact hnodup.of_cons
    have htnotin : t ∉ (mid' ++ [((10 : Int), v10)]).map Prod.fst := by
      simp only [List.cons_append, List.map_cons] at hnodup
      exact (List.nodup_cons.mp hnodup).1
    rw [ih k ⟨m.fields ++ [(t, v)]⟩ v10 (cs.roll (encodeValue v)) (dlAfter dl v) t
      (fun q hq => hgood q (by simp at hq ⊢; tauto))
      (fun q hq => hne10 q (by simp [hq]))
      ?_ hnodup' (by simp at hfuel ⊢; omega)]
    · simp
    · intro q hq
      simp only [List.map_append, List.map_cons]
      intro hmem
      rcases List.mem_append.mp hmem with hin | hin
      · exact hfresh q (by simp at hq ⊢; tauto) hin
      · simp at hin
        apply htnotin
        rw [← hin]
        exact List.mem_map_of_mem Prod.fst hq

theorem Field.encode_length_pos (sep : Nat) (f : Field) : 0 < (Field.encode sep f).length := by
  rw [Field.encode]
  simp

theorem encodeFields_length_ge (sep : Nat) :
    ∀ fs : List (Int × FixFieldValue), fs.length ≤ (encodeFields sep fs).length := by
  intro fs
  induction fs with
  | nil => simp [encodeFields]
  | cons p ps ih =>
    simp only [encodeFields, List.length_cons, List.length_append]
    have := Field.encode_length_pos sep ⟨p.1, p.2, 0, 0⟩
    omega

/-- Claim C1 (amended): for a message whose fields, in the mapping's order,
begin with tags 8, 9, 35 and end with tag 10, with pairwise distinct tags,
each tag resolved by the dictionary to the datatype of its value, and each
value a representable Int, a Char, or a valid-UTF-8 String whose encoded
bytes avoid the separator byte, decode(encode(m)) succeeds and returns a
message with exactly the same tag-to-value mapping as m. -/
theorem claim1_roundtrip (resolve : Nat → BaseType) (sep : Nat)
    (v8 v9 v35 v10 : FixFieldValue) (mid : List (Int × FixFieldValue)) (m : Message)
    (hm : m.fields = (8, v8) :: (9, v9) :: (35, v35) :: (mid ++ [(10, v10)]))
    (hnodup : (m.fields.map Prod.fst).Nodup)
    (hgood : ∀ p ∈ m.fields, GoodField resolve sep p.1 p.2) :
    TagValue.decode resolve sep (TagValue.encode sep m) = .ok m := by
  obtain ⟨fl⟩ := m
  replace hm : fl = (8, v8) :: (9, v9) :: (35, v35) :: (mid ++ [(10, v10)]) := hm
  subst hm
  simp only [List.map_cons, List.nodup_cons, List.map_append] at hnodup
  obtain ⟨h8, h9, h35, hrestnodup⟩ := hnodup
  have hg8 : GoodField resolve sep 8 v8 := hgood (8, v8) (by simp)
  have hg9 : GoodField resolve sep 9 v9 := hgood (9, v9) (by simp)
  have hg35 : GoodField resolve sep 35 v35 := hgood (35, v35) (by simp)
  rw [TagValue.encode]
  rw [TagValue.decode]
  simp only [initIter, encodeFields, List.append_eq]
  rw [next_encodeField resolve sep 8 v8 _ Checksum.new 0 hg8]
  dsimp only
  rw [if_pos rfl]
  rw [show ((8 : Int) == 10) = false from by decide]
  rw [next_encodeField resolve sep 9 v9 _ _ _ hg9]
  dsimp only
  rw [if_pos rfl]
  rw [show ((9 : Int) == 10) = false from by decide]
  rw [next_encodeField resolve sep 35 v35 _ _ _ hg35]
  dsimp only
  rw [if_pos rfl]
  rw [show ((35 : Int) == 10) = false from by decide]
  have hmsg3 : ((Message.empty.insert 8 v8).insert 9 v9).insert 35 v35
      = ⟨[(8, v8), (9, v9), (35, v35)]⟩ := by
    simp [Message.insert, Message.empty]
  rw [hmsg3]
  have h10mid : ∀ p ∈ mid, p.1 ≠ (10 : Int) := by
    intro p hp hcontra
    have h1 := (List.nodup_append.mp hrestnodup).2.2
    have : p.1 ∈ mid.map Prod.fst := List.mem_map_of_mem Prod.fst hp
    exact h1 this (by simp [hcontra])
  have hfresh3 : ∀ p ∈ mid ++ [((10 : Int), v10)],
      p.1 ∉ (Message.fields ⟨[(8, v8), (9, v9), (35, v35)]⟩).map Prod.fst := by
    intro p hp
    have hpk : p.1 ∈ (mid ++ [((10 : Int), v10)]).map Prod.fst :=
      List.mem_map_of_mem Prod.fst hp
    simp only [List.map_append, List.map_cons] at hpk
    intro hmem
    simp only [Message.fields, List.map_cons, List.map_nil] at hmem
    have hp8 : p.1 ≠ 8 := by
      intro hc; rw [hc] at hpk; exact h8 (by simpa using hpk)
    have hp9 : p.1 ≠ 9 := by
      intro hc; rw [hc] at hpk
      exact h9 (List.mem_cons_of_mem _ hpk)
    have hp35 : p.1 ≠ 35 := by
      intro hc; rw [hc] at hpk
      exact h35 (by simpa using hpk)
    simp at hmem
    rcases hmem with hc | hc | hc
    · exact hp8 hc
    · exact hp9 hc
    · exact hp35 hc
  have hrestnodup' : ((mid ++ [((10 : Int), v10)]).map Prod.fst).Nodup := by
    simpa using hrestnodup
  have hfuel : mid.length + 1 <
      (Field.encode sep ⟨8, v8, 0, 0⟩ ++
        (Field.encode sep ⟨9, v9, 0, 0⟩ ++
          (Field.encode sep ⟨35, v35, 0, 0⟩ ++ encodeFields sep (mid ++ [(10, v10)])))).length
        + 1 := by
    have h1 := encodeFields_length_ge sep (mid ++ [(10, v10)])
    simp only [List.length_append] at *
    simp at h1
    omega
  rw [decodeRest_encodeFields resolve sep mid _ ⟨[(8, v8), (9, v9), (35, v35)]⟩ v10
    _ _ 35
    (fun q hq => hgood q (by simp at hq ⊢; tauto))
    h10mid hfresh3 hrestnodup' hfuel]
  simp

/-- The resolver of a TagValue codec built by TagValue::new: StandardTagLookup
over Dictionary::empty resolves every tag to String. -/
def allString : Nat → BaseType := fun _ => .string

/-- Claim C2 (amended): for every input byte stream, decode returns
InvalidStandardHeader unless the first three pulls produce fields with tags
8, 9, 35 in exactly that order, or one of the first three pulls yields a
field-decode error (propagated unchanged) or panics; exhaustion on the very
first pull returns Eof instead of InvalidStandardHeader, and exhaustion on
the second or third pull returns InvalidStandardHeader. -/
theorem claim2_header_policy (resolve : Nat → BaseType) (sep : Nat) (stream : List Nat) :
    (FieldIter.next resolve sep (initIter stream) = .fin →
      TagValue.decode resolve sep stream = .err .Eof)
    ∧ (∀ e, FieldIter.next resolve sep (initIter stream) = .errF e →
      TagValue.decode resolve sep stream = .err e)
    ∧ (FieldIter.next resolve sep (initIter stream) = .panicF →
      TagValue.decode resolve sep stream = .panic)
    ∧ (∀ f1 st1, FieldIter.next resolve sep (initIter stream) = .ok f1 st1 →
        (f1.tag ≠ 8 → TagValue.decode resolve sep stream = .err .InvalidStandardHeader)
        ∧ (f1.tag = 8 →
          (FieldIter.next resolve sep st1 = .fin →
            TagValue.decode resolve sep stream = .err .InvalidStandardHeader)
          ∧ (∀ e, FieldIter.next resolve sep st1 = .errF e →
            TagValue.decode resolve sep stream = .err e)
          ∧ (FieldIter.next resolve sep st1 = .panicF →
            TagValue.decode resolve sep stream = .panic)
          ∧ (∀ f2 st2, FieldIter.next resolve sep st1 = .ok f2 st2 →
            (f2.tag ≠ 9 → TagValue.decode resolve sep stream = .err .InvalidStandardHeader)
            ∧ (f2.tag = 9 →
              (FieldIter.next resolve sep st2 = .fin →
                TagValue.decode resolve sep stream = .err .InvalidStandardHeader)
              ∧ (∀ e, FieldIter.next resolve sep st2 = .errF e →
                TagValue.decode resolve sep stream = .err e)
              ∧ (FieldIter.next resolve sep st2 = .panicF →
                TagValue.decode resolve sep stream = .panic)
              ∧ (∀ f3 st3, FieldIter.next resolve sep st2 = .ok f3 st3 →
                f3.tag ≠ 35 →
                TagValue.decode resolve sep stream = .err .InvalidStandardHeader))))) := by
  refine ⟨?_, ?_, ?_, ?_⟩
  · intro h
    rw [TagValue.decode, h]
  · intro e h
    rw [TagValue.decode, h]
  · intro h
    rw [TagValue.decode, h]
  · intro f1 st1 h1
    constructor
    · intro hne
      rw [TagValue.decode, h1]
      dsimp only
      rw [if_neg hne]
    · intro h8
      refine ⟨?_, ?_, ?_, ?_⟩
      · intro h
        rw [TagValue.decode, h1]
        dsimp only
        rw [if_pos h8, h]
      · intro e h
        rw [TagValue.decode, h1]
        dsimp only
        rw [if_pos h8, h]
      · intro h
        rw [TagValue.decode, h1]
        dsimp only
        rw [if_pos h8, h]
      · intro f2 st2 h2
        constructor
        · intro hne
          rw [TagValue.decode, h1]
          dsimp only
          rw [if_pos h8, h2]
          dsimp only
          rw [if_neg hne]
        · intro h9
          refine ⟨?_, ?_, ?_, ?_⟩
          · intro h
            rw [TagValue.decode, h1]
            dsimp only
            rw [if_pos h8, h2]
            dsimp only
            rw [if_pos h9, h]
          · intro e h
            rw [TagValue.decode, h1]
            dsimp only
            rw [if_pos h8, h2]
            dsimp only
            rw [if_pos h9, h]
          · intro h
            rw [TagValue.decode, h1]
            dsimp only
            rw [if_pos h8, h2]
            dsimp only
            rw [if_pos h9, h]
          · intro f3 st3 h3 hne
            rw [TagValue.decode, h1]
            dsimp only
            rw [if_pos h8, h2]
            dsimp only
            rw [if_pos h9, h3]
            dsimp only
            rw [if_neg hne]

/-- Witness for claim C2: the empty stream gives Eof (first-pull exhaustion),
and a stream whose first field has tag 9 gives InvalidStandardHeader. -/
theorem claim2_header_policy_witness :
    TagValue.decode allString 124 [] = .err .Eof
    ∧ TagValue.decode allString 124 [57, 61, 88, 124] = .err .InvalidStandardHeader := by
  constructor
  · exact (claim2_header_policy allString 124 []).1 rfl
  · exact ((claim2_header_policy allString 124 [57, 61, 88, 124]).2.2.2
      ⟨9, .String [88], 88, 1⟩ ⟨[], ⟨88, 1⟩, 0, false⟩ rfl).1 (by decide)

/-- Counterexample for claim C2 as stated: on the truncated stream "8=FIX"
(no separator ever appears) the first pull yields the error Eof — the
iterator is not exhausted, so the claim's sole exception does not apply and
the claim demands InvalidStandardHeader — yet decode returns Eof. -/
theorem claim2_counterexample :
    TagValue.decode allString 124 [56, 61, 70, 73, 88] = .err .Eof
    ∧ FieldIter.next allString 124 (initIter [56, 61, 70, 73, 88]) = .errF .Eof
    ∧ decide (TagValue.decode allString 124 [56, 61, 70, 73, 88]
        = .err .InvalidStandardHeader) = false := by
  exact ⟨rfl, rfl, rfl⟩

theorem runIterF_fin (resolve : Nat → BaseType) (sep : Nat) {st : FieldIter} (fuel : Nat)
    (h : FieldIter.next resolve sep st = .fin) (hf : 0 < fuel) :
    runIterF resolve sep fuel st = ([], .exhausted) := by
  match fuel, hf with
  | k + 1, _ =>
    simp only [runIterF]
    rw [h]

theorem runIterF_errF (resolve : Nat → BaseType) (sep : Nat) {st : FieldIter} (fuel : Nat)
    {e : Error} (h : FieldIter.next resolve sep st = .errF e) (hf : 0 < fuel) :
    runIterF resolve sep fuel st = ([], .errored e) := by
  match fuel, hf with
  | k + 1, _ =>
    simp only [runIterF]
    rw [h]

theorem runIterF_panicF (resolve : Nat → BaseType) (sep : Nat) {st : FieldIter} (fuel : Nat)
    (h : FieldIter.next resolve sep st = .panicF) (hf : 0 < fuel) :
    runIterF resolve sep fuel st = ([], .panicked) := by
  match fuel, hf with
  | k + 1, _ =>
    simp only [runIterF]
    rw [h]

theorem runIterF_step (resolve : Nat → BaseType) (sep : Nat) {st : FieldIter}
    {f : Field} {st2 : FieldIter} (fuel : Nat)
    (h : FieldIter.next resolve sep st = .ok f st2) (hfuel : st.handle.length < fuel) :
    runIterF resolve sep fuel st
      = (f :: (runIterF resolve sep (st2.handle.length + 1) st2).1,
         (runIterF resolve sep (st2.handle.length + 1) st2).2) := by
  match fuel, hfuel with
  | k + 1, hfuel =>
    have hlt := next_ok_stream_lt h
    set R := runIterF resolve sep (st2.handle.length + 1) st2 with hR
    simp only [runIterF]
    rw [h]
    dsimp only
    rw [runIterF_congr resolve sep k (st2.handle.length + 1) (by omega) (by omega), ← hR]

/-- Claim C3 (amended): decode fails with InvalidStandardTrailer exactly when
the whole field sequence decodes successfully (the iterator reaches clean
exhaustion), its first three fields carry tags 8, 9, 35 in that order, and
the last field produced before the sequence ends (the third header field when
no further field follows) does not have tag 10. -/
theorem claim3_trailer (resolve : Nat → BaseType) (sep : Nat) (stream : List Nat) :
    TagValue.decode resolve sep stream = .err .InvalidStandardTrailer ↔
      ∃ f1 f2 f3 rest,
        runIter resolve sep stream = (f1 :: f2 :: f3 :: rest, .exhausted)
        ∧ f1.tag = 8 ∧ f2.tag = 9 ∧ f3.tag = 35 ∧ lastTagOf 35 rest ≠ 10 := by
  have hstream0 : (initIter stream).handle.length = stream.length := rfl
  rw [TagValue.decode, runIter]
  cases h1 : FieldIter.next resolve sep (initIter stream) with
  | fin =>
    rw [runIterF_fin resolve sep _ h1 (by omega)]
    constructor
    · intro hbad; simp at hbad
    · rintro ⟨f1, f2, f3, rest, heq, -, -, -, -⟩
      simp at heq
  | errF e =>
    rw [runIterF_errF resolve sep _ h1 (by omega)]
    constructor
    · intro hbad
      have he := next_err_eof h1
      subst he
      simp at hbad
    · rintro ⟨f1, f2, f3, rest, heq, -, -, -, -⟩
      simp at heq
  | panicF =>
    rw [runIterF_panicF resolve sep _ h1 (by omega)]
    constructor
    · intro hbad; simp at hbad
    · rintro ⟨f1, f2, f3, rest, heq, -, -, -, -⟩
      simp at heq
  | ok f1 st1 =>
    dsimp only
    have l1 : st1.handle.length < stream.length := next_ok_stream_lt h1
    rw [runIterF_step resolve sep _ h1 (by omega)]
    by_cases ht1 : f1.tag = 8
    · rw [if_pos ht1]
      cases h2 : FieldIter.next resolve sep st1 with
      | fin =>
        rw [runIterF_fin resolve sep _ h2 (by omega)]
        constructor
        · intro hbad; simp at hbad
        · rintro ⟨g1, g2, g3, rest, heq, -, -, -, -⟩
          simp at heq
      | errF e =>
        rw [runIterF_errF resolve sep _ h2 (by omega)]
        constructor
        · intro hbad
          have he := next_err_eof h2
          subst he
          simp at hbad
        · rintro ⟨g1, g2, g3, rest, heq, -, -, -, -⟩
          simp at heq
      | panicF =>
        rw [runIterF_panicF resolve sep _ h2 (by omega)]
        constructor
        · intro hbad; simp at hbad
        · rintro ⟨g1, g2, g3, rest, heq, -, -, -, -⟩
          simp at heq
      | ok f2 st2 =>
        dsimp only
        have l2 : st2.handle.length < st1.handle.length := next_ok_stream_lt h2
        rw [runIterF_step resolve sep _ h2 (by omega)]
        by_cases ht2 : f2.tag = 9
        · rw [if_pos ht2]
          cases h3 : FieldIter.next resolve sep st2 with
          | fin =>
            rw [runIterF_fin resolve sep _ h3 (by omega)]
            constructor
            · intro hbad; simp at hbad
            · rintro ⟨g1, g2, g3, rest, heq, -, -, -, -⟩
              simp at heq
          | errF e =>
            rw [runIterF_errF resolve sep _ h3 (by omega)]
            constructor
            · intro hbad
              have he := next_err_eof h3
              subst he
              simp at hbad
            · rintro ⟨g1, g2, g3, rest, heq, -, -, -, -⟩
              simp at heq
          | panicF =>
            rw [runIterF_panicF resolve sep _ h3 (by omega)]
            constructor
            · intro hbad; simp at hbad
            · rintro ⟨g1, g2, g3, rest, heq, -, -, -, -⟩
              simp at heq
          | ok f3 st3 =>
            dsimp only
            have l3 : st3.handle.length < st2.handle.length := next_ok_stream_lt h3
            rw [runIterF_step resolve sep _ h3 (by omega)]
            by_cases ht3 : f3.tag = 35
            · rw [if_pos ht3]
              rw [decodeRestF_congr resolve sep (stream.length + 1)
                (st3.handle.length + 1) _ _ (by omega) (by omega)]
              rw [decodeRestF_IST_iff resolve sep (st3.handle.length + 1) _ 35 (by omega)]
              constructor
              · rintro ⟨fs, hfs, hlast⟩
                refine ⟨f1, f2, f3, fs, ?_, ht1, ht2, ht3, hlast⟩
                rw [hfs]
              · rintro ⟨g1, g2, g3, rest, heq, -, -, -, hlast⟩
                simp only [Prod.mk.injEq, List.cons.injEq] at heq
                obtain ⟨⟨-, -, -, e4⟩, e5⟩ := heq
                refine ⟨(runIterF resolve sep (st3.handle.length + 1) st3).1, ?_, ?_⟩
                · rw [← e5]
                · rw [e4]; exact hlast
            · rw [if_neg ht3]
              constructor
              · intro hbad; simp at hbad
              · rintro ⟨g1, g2, g3, rest, heq, -, -, hg3, -⟩
                simp only [Prod.mk.injEq, List.cons.injEq] at heq
                obtain ⟨⟨-, -, e3, -⟩, -⟩ := heq
                exact (ht3 (by rw [e3, hg3])).elim
        · rw [if_neg ht2]
          constructor
          · intro hbad; simp at hbad
          · rintro ⟨g1, g2, g3, rest, heq, -, hg2, -, -⟩
            simp only [Prod.mk.injEq, List.cons.injEq] at heq
            obtain ⟨⟨-, e2, -⟩, -⟩ := heq
            exact (ht2 (by rw [e2, hg2])).elim
    · rw [if_neg ht1]
      constructor
      · intro hbad; simp at hbad
      · rintro ⟨g1, g2, g3, rest, heq, hg1, -, -, -⟩
        simp only [Prod.mk.injEq, List.cons.injEq] at heq
        obtain ⟨⟨e1, -⟩, -⟩ := heq
        exact (ht1 (by rw [e1, hg1])).elim

/-- Witness for claim C3: a stream with a well-formed header and no tag-10
field decodes to InvalidStandardTrailer, via the theorem's right-to-left
direction. -/
theorem claim3_trailer_witness :
    TagValue.decode allString 124 [56, 61, 65, 124, 57, 61, 66, 124, 51, 53, 61, 67, 124]
      = .err .InvalidStandardTrailer :=
  (claim3_trailer allString 124 [56, 61, 65, 124, 57, 61, 66, 124, 51, 53, 61, 67, 124]).mpr
    ⟨⟨8, .String [65], 65, 1⟩, ⟨9, .String [66], 131, 2⟩, ⟨35, .String [67], 198, 3⟩, [],
      rfl, rfl, rfl, rfl, by decide⟩

/-- Counterexample for claim C3 as stated: on "35=D|49=X|" every field
decodes successfully and the last field's tag is 49, not 10, yet decode
returns InvalidStandardHeader (the header check fires first), not
InvalidStandardTrailer. -/
theorem claim3_counterexample :
    TagValue.decode allString 124 [51, 53, 61, 68, 124, 52, 57, 61, 88, 124]
        = .err .InvalidStandardHeader
    ∧ runIter allString 124 [51, 53, 61, 68, 124, 52, 57, 61, 88, 124]
        = ([⟨35, .String [68], 68, 1⟩, ⟨49, .String [88], 156, 2⟩], .exhausted)
    ∧ decide (TagValue.decode allString 124 [51, 53, 61, 68, 124, 52, 57, 61, 88, 124]
        = .err .InvalidStandardTrailer) = false :=
  ⟨rfl, rfl, rfl⟩

/-- Witness for claim C1: a four-field message (header 8, 9, 35 and trailer
10, all String values over separator '|' and the empty dictionary) survives
the round trip exactly. -/
theorem claim1_roundtrip_witness :
    TagValue.decode allString 124
        (TagValue.encode 124
          ⟨[(8, .String [70]), (9, .String [49]), (35, .String [68]), (10, .String [48])]⟩)
      = .ok ⟨[(8, .String [70]), (9, .String [49]), (35, .String [68]), (10, .String [48])]⟩ :=
  claim1_roundtrip allString 124 (.String [70]) (.String [49]) (.String [68]) (.String [48])
    [] _ rfl (by decide) (by decide)

/-- Counterexample for claim C1 as stated: a message holding all of the
required tags 8, 9, 35 and 10 with supported String values, but whose mapping
order starts with tag 9, encodes to a stream decode rejects with
InvalidStandardHeader — decode(encode(m)) does not reproduce m. -/
theorem claim1_counterexample :
    TagValue.decode allString 124
        (TagValue.encode 124
          ⟨[(9, .String [49]), (8, .String [70]), (35, .String [68]), (10, .String [48])]⟩)
      = .err .InvalidStandardHeader
    ∧ decide (TagValue.decode allString 124
        (TagValue.encode 124
          ⟨[(9, .String [49]), (8, .String [70]), (35, .String [68]), (10, .String [48])]⟩)
      = .ok ⟨[(9, .String [49]), (8, .String [70]), (35, .String [68]), (10, .String [48])]⟩)
        = false :=
  ⟨rfl, rfl⟩

/-- Claim C8: along any run of the field iterator from a fresh decode state,
the reported per-field window lengths are exactly the running totals of the
checksum windows' byte counts (the value regions after each `=` — for a Data
field the raw data bytes plus one separator byte, otherwise the value bytes
before the separator — never tag digits or the `=`), the reported checksum
sums are the mod-256 running totals of those windows' byte sums, and the
length sequence is non-decreasing. -/
theorem claim8_checksum (resolve : Nat → BaseType) (sep : Nat) (fuel : Nat)
    (stream : List Nat) :
    ((runIterF resolve sep fuel (initIter stream)).1.map Field.len
        = runningTotalsFrom 0 ((windowsF resolve sep fuel (initIter stream)).map List.length))
    ∧ ((runIterF resolve sep fuel (initIter stream)).1.map Field.checksum
        = (runningTotalsFrom 0 ((windowsF resolve sep fuel (initIter stream)).map sumList)).map
            (· % 256))
    ∧ List.Chain' (· ≤ ·) ((runIterF resolve sep fuel (initIter stream)).1.map Field.len) := by
  obtain ⟨h1, h2⟩ := runIterF_checksum_maps resolve sep fuel (initIter stream)
    (by show (0 : Nat) < 256; omega)
  refine ⟨h1, h2, ?_⟩
  rw [h1]
  exact runningTotalsFrom_chain _ 0

/-- Claim C10: the Char branch of field_value is not total — on an empty
buffer it indexes buf[0] out of bounds and panics instead of returning a
Syntax error, and on any non-empty buffer it takes the first byte verbatim. -/
theorem claim10_char_totality :
    field_value .char [] = .panicV
    ∧ (∀ (b : Nat) (bs : List Nat), field_value .char (b :: bs) = .okV (.Char b)) :=
  ⟨rfl, fun _ _ => rfl⟩

/-- A resolver mapping tag 95 to Int and tag 96 to length-prefixed Data. -/
def intThenData : Nat → BaseType :=
  fun t => if t = 95 then .int else if t = 96 then .data else .string

/-- A resolver mapping tag 96 to length-prefixed Data. -/
def dataOnly : Nat → BaseType := fun t => if t = 96 then .data else .string

/-- A resolver mapping tag 49 to Int. -/
def intAt49 : Nat → BaseType := fun t => if t = 49 then .int else .string

/-- Claim C4 evaluated on the failing input "95=2|96=AB|" (95 resolved Int,
96 resolved Data, separator '|'): the decoder consumes exactly N = 2 bytes
plus one separator (the run ends exhausted with the stream fully consumed and
window length 4 = "2" + data "AB" + separator), but the Data value it yields
is [124, 66] — the separator byte read at tagvalue.rs line 255 has overwritten
the first data byte 65 — not the claimed untouched [65, 66]. -/
theorem claim4_data_clobber :
    runIter intThenData 124 [57, 53, 61, 50, 124, 57, 54, 61, 65, 66, 124]
      = ([⟨95, .Int 2, 50, 1⟩, ⟨96, .Data [124, 66], 49, 4⟩], .exhausted)
    ∧ decide ((FixFieldValue.Data [124, 66]) = .Data [65, 66]) = false :=
  ⟨rfl, rfl⟩

/-- Claim C9 evaluated on the failing input "96=|" with tag 96 resolved Data
and no preceding Int field (pending data length still 0): instead of yielding
an empty Data value, FieldIter::next panics — `buffer[0..1]` indexes the
empty data buffer out of bounds at tagvalue.rs line 255. -/
theorem claim9_zero_length_panic :
    FieldIter.next dataOnly 124 (initIter [57, 54, 61, 124]) = .panicF
    ∧ (initIter [57, 54, 61, 124]).data_length = 0 :=
  ⟨rfl, rfl⟩

/-- Claim C5 evaluated on the failing input "49=xy|" with tag 49 resolved
Int: field_value indeed reports Error::Syntax, but FieldIter::next unwraps
that Result at tagvalue.rs line 265 and panics, so no Syntax error ever
reaches decode — a full message carrying the bad field makes decode panic
rather than return Syntax. -/
theorem claim5_syntax_unwrap :
    field_value .int [120, 121] = .errV .Syntax
    ∧ FieldIter.next intAt49 124 (initIter [52, 57, 61, 120, 121, 124]) = .panicF
    ∧ TagValue.decode intAt49 124
        [56, 61, 65, 124, 57, 61, 66, 124, 51, 53, 61, 67, 124,
          52, 57, 61, 120, 121, 124, 49, 48, 61, 48, 124]
      = .panic :=
  ⟨rfl, rfl, rfl⟩

/-- Claim C7 evaluated at truncation points inside a tag: on the single-byte
stream "5" the decoder pops the final byte (assuming it was the absent '='),
unwraps the parse of the now-empty digit string, and panics — it does not
report Eof; on "12" the same popped-byte bug leaves the digit "1", the
misparsed tag resolves to a non-Data type, and only then does the value read
produce Eof. -/
theorem claim7_midtag_truncation :
    FieldIter.next allString 124 (initIter [53]) = .panicF
    ∧ FieldIter.next allString 124 (initIter [49, 50]) = .errF .Eof :=
  ⟨rfl, rfl⟩

theorem mem_of_getLast?_eq_some {l : List Nat} {b : Nat} (h : l.getLast? = some b) :
    b ∈ l := by
  obtain ⟨hne, hb⟩ := List.mem_getLast?_eq_getLast (Option.mem_def.mpr h)
  rw [hb]
  exact List.getLast_mem hne

/-- Claim C6: when a non-Data field's value region is truncated — after the
tag's `=` the stream ends without the separator byte ever appearing — the
field decoder yields the error Eof; accordingly, decode on the spec's
truncated example message "8=FIX.4.2|...|10=127" (missing final separator)
returns Eof. -/
theorem claim6_truncated_value (resolve : Nat → BaseType) (sep : Nat)
    (tb v : List Nat) (t : Int) (cs : Checksum) (dl : Nat)
    (htb : rustParseI64 tb = some t) (hne : (61 : Nat) ∉ tb)
    (hnd : resolve (castU32 t) ≠ .data) (hv : sep ∉ v) :
    FieldIter.next resolve sep ⟨tb ++ 61 :: v, cs, dl, false⟩ = .errF .Eof
    ∧ TagValue.decode allString 124
        [56, 61, 70, 73, 88, 46, 52, 46, 50, 124, 57, 61, 50, 53, 49, 124, 51, 53, 61, 68,
          124, 52, 57, 61, 65, 70, 85, 78, 68, 77, 71, 82, 124, 53, 54, 61, 65, 66, 82, 79,
          75, 69, 82, 116, 124, 49, 53, 61, 85, 83, 68, 124, 53, 57, 61, 48, 124, 49, 48,
          61, 49, 50, 55]
      = .err .Eof := by
  constructor
  · simp only [FieldIter.next]
    have hfb : ¬(false = true) := by simp
    rw [if_neg hfb]
    rw [readUntil_append_cons tb hne v]
    try dsimp only
    have hnil : ¬(tb ++ [61] = []) := by simp
    rw [if_neg hnil]
    rw [List.dropLast_concat, htb]
    try dsimp only
    cases hres : resolve (castU32 t) with
    | data => exact absurd hres hnd
    | int =>
      rw [readUntil_not_mem v hv]
      try dsimp only
      cases hvl : v.getLast? with
      | none => rfl
      | some b =>
        have hbmem : b ∈ v := mem_of_getLast?_eq_some hvl
        dsimp only
        rw [if_neg (show ¬(b = sep) from fun hc => hv (hc ▸ hbmem))]
    | float =>
      rw [readUntil_not_mem v hv]
      try dsimp only
      cases hvl : v.getLast? with
      | none => rfl
      | some b =>
        have hbmem : b ∈ v := mem_of_getLast?_eq_some hvl
        dsimp only
        rw [if_neg (show ¬(b = sep) from fun hc => hv (hc ▸ hbmem))]
    | char =>
      rw [readUntil_not_mem v hv]
      try dsimp only
      cases hvl : v.getLast? with
      | none => rfl
      | some b =>
        have hbmem : b ∈ v := mem_of_getLast?_eq_some hvl
        dsimp only
        rw [if_neg (show ¬(b = sep) from fun hc => hv (hc ▸ hbmem))]
    | string =>
      rw [readUntil_not_mem v hv]
      try dsimp only
      cases hvl : v.getLast? with
      | none => rfl
      | some b =>
        have hbmem : b ∈ v := mem_of_getLast?_eq_some hvl
        dsimp only
        rw [if_neg (show ¬(b = sep) from fun hc => hv (hc ▸ hbmem))]
  · rfl

/-- Witness for claim C6: the truncated field "56=U" (tag 56, value cut off
before any separator) yields Eof from the field decoder. -/
theorem claim6_truncated_value_witness :
    FieldIter.next allString 124 ⟨[53, 54, 61, 85], Checksum.new, 0, false⟩ = .errF .Eof
    ∧ TagValue.decode allString 124
        [56, 61, 70, 73, 88, 46, 52, 46, 50, 124, 57, 61, 50, 53, 49, 124, 51, 53, 61, 68,
          124, 52, 57, 61, 65, 70, 85, 78, 68, 77, 71, 82, 124, 53, 54, 61, 65, 66, 82, 79,
          75, 69, 82, 116, 124, 49, 53, 61, 85, 83, 68, 124, 53, 57, 61, 48, 124, 49, 48,
          61, 49, 50, 55]
      = .err .Eof :=
  claim6_truncated_value allString 124 [53, 54] [85] 56 Checksum.new 0 rfl (by decide)
    (by decide) (by decide)

end Fasters
